import Mathlib

/-!
Verification development for the KeyStudio-to-OpenAI conversion engine
(`script.js`): the tool normalizer (`convertTools` with its inner
`normalizeSchema`), the name resolver (`buildToolNameMap`) and the message
reconstructor (`convertMessages` with `convertMessageContent`).

JavaScript values flowing through the converters are modelled by the
inductive type `SVal` (null, booleans, numbers, strings, arrays, objects).
An object is a sequence of fields in insertion order (`SFields`, converted
to `List (String × SVal)` by `SFields.toList` for specification purposes);
property reads take the first binding of a key and property writes update
the first binding in place (or append a new one), matching JS object
semantics on the duplicate-free field lists that real objects produce.
Absent properties are modelled as `Option.none` (JS `undefined`).  Numbers
are modelled as integers: no conversion in scope performs arithmetic on
them.  Property reads on `null` receivers, which throw in JS, are modelled
as `undefined`: every claim below concerns the converters' outputs, which
only exist when no exception is thrown.
-/

set_option maxHeartbeats 1000000

namespace CurlGen

mutual
/-- A JavaScript value, as seen by the converters. -/
inductive SVal where
  | null
  | bool (b : Bool)
  | num (n : Int)
  | str (s : String)
  | arr (elems : SElems)
  | obj (fields : SFields)
deriving Repr, DecidableEq

/-- The element sequence of a JS array value. -/
inductive SElems where
  | nil
  | cons (head : SVal) (tail : SElems)
deriving Repr, DecidableEq

/-- The field sequence of a JS object value, in insertion order. -/
inductive SFields where
  | nil
  | cons (key : String) (value : SVal) (tail : SFields)
deriving Repr, DecidableEq
end

/-- View of an element sequence as a list. -/
def SElems.toList : SElems → List SVal
  | .nil => []
  | .cons v tl => v :: tl.toList

/-- View of a field sequence as a list of key/value pairs. -/
def SFields.toList : SFields → List (String × SVal)
  | .nil => []
  | .cons k v tl => (k, v) :: tl.toList

/-- Build an element sequence from a list. -/
def SElems.ofList : List SVal → SElems
  | [] => .nil
  | v :: tl => .cons v (SElems.ofList tl)

/-- Build a field sequence from a list of key/value pairs. -/
def SFields.ofList : List (String × SVal) → SFields
  | [] => .nil
  | (k, v) :: tl => .cons k v (SFields.ofList tl)

/-- Object literal with the given fields. -/
def SVal.objL (l : List (String × SVal)) : SVal := .obj (SFields.ofList l)

/-- Array literal with the given elements. -/
def SVal.arrL (l : List SVal) : SVal := .arr (SElems.ofList l)

@[simp] theorem toList_nil_elems : SElems.nil.toList = [] := rfl

@[simp] theorem toList_cons_elems (v : SVal) (tl : SElems) :
    (SElems.cons v tl).toList = v :: tl.toList := rfl

@[simp] theorem toList_nil_fields : SFields.nil.toList = [] := rfl

@[simp] theorem toList_cons_fields (k : String) (v : SVal) (tl : SFields) :
    (SFields.cons k v tl).toList = (k, v) :: tl.toList := rfl

@[simp] theorem toList_ofList_elems (l : List SVal) : (SElems.ofList l).toList = l := by
  induction l with
  | nil => rfl
  | cons v tl ih => simp [SElems.ofList, ih]

@[simp] theorem toList_ofList_fields (l : List (String × SVal)) :
    (SFields.ofList l).toList = l := by
  induction l with
  | nil => rfl
  | cons p tl ih =>
    obtain ⟨k, v⟩ := p
    simp [SFields.ofList, ih]

/-- JS truthiness: `null`/`undefined`, `false`, `0` and `""` are falsy,
arrays and objects are always truthy. -/
def truthy : SVal → Bool
  | .null => false
  | .bool b => b
  | .num n => decide (n ≠ 0)
  | .str s => decide (s ≠ "")
  | .arr _ => true
  | .obj _ => true

/-- First binding of a key in a field list (JS property read). -/
def olookup (k : String) : List (String × SVal) → Option SVal
  | [] => none
  | (k', v) :: rest => if k' = k then some v else olookup k rest

/-- JS property write: update the first binding of the key in place,
or append a new binding. -/
def jsSet (k : String) (v : SVal) : List (String × SVal) → List (String × SVal)
  | [] => [(k, v)]
  | (k', v') :: rest => if k' = k then (k, v) :: rest else (k', v') :: jsSet k v rest

/-- Property read on an arbitrary value: only objects carry the named
properties the converters read; on every other value the read yields
`undefined`. -/
def getProp (v : SVal) (k : String) : Option SVal :=
  match v with
  | .obj f => olookup k f.toList
  | _ => none

/-- Property read through a possibly-absent receiver (the source only
chains reads after truthiness or optional-chaining guards). -/
def oget (o : Option SVal) (k : String) : Option SVal :=
  match o with
  | some v => getProp v k
  | none => none

/-- Truthiness of a possibly-absent value. -/
def otruthy (o : Option SVal) : Bool :=
  match o with
  | some v => truthy v
  | none => false

/-- JS `a || b` with a possibly-absent `a`. -/
def jsOrD (o : Option SVal) (d : SVal) : SVal :=
  match o with
  | some v => if truthy v then v else d
  | none => d

/-- JS strict equality (`===`) of a possibly-absent value with a string
literal. -/
def isStr (o : Option SVal) (s : String) : Bool :=
  match o with
  | some (.str s') => s' = s
  | _ => false

/-- JS strict equality (`===`) of a possibly-absent value with the
literal `false`. -/
def isFalseLit (o : Option SVal) : Bool :=
  match o with
  | some (.bool false) => true
  | _ => false

@[simp] theorem olookup_nil (k : String) : olookup k [] = none := rfl

@[simp] theorem olookup_cons (k k' : String) (v : SVal) (rest : List (String × SVal)) :
    olookup k ((k', v) :: rest) = if k' = k then some v else olookup k rest := rfl

@[simp] theorem getProp_objL (l : List (String × SVal)) (k : String) :
    getProp (SVal.objL l) k = olookup k l := by
  simp [getProp, SVal.objL]

theorem olookup_jsSet_self (k : String) (v : SVal) (l : List (String × SVal)) :
    olookup k (jsSet k v l) = some v := by
  induction l with
  | nil => simp [jsSet]
  | cons p rest ih =>
    obtain ⟨k', v'⟩ := p
    by_cases h : k' = k
    · simp [jsSet, h]
    · simp [jsSet, h, ih]

theorem olookup_jsSet_ne (k k' : String) (hk : k' ≠ k) (v : SVal) (l : List (String × SVal)) :
    olookup k' (jsSet k v l) = olookup k' l := by
  induction l with
  | nil => simp [jsSet, Ne.symm hk]
  | cons p rest ih =>
    obtain ⟨k0, v0⟩ := p
    by_cases h : k0 = k
    · subst h
      simp [jsSet, Ne.symm hk]
    · simp [jsSet, h, ih]

theorem olookup_mem {k : String} {l : List (String × SVal)} {v : SVal}
    (h : olookup k l = some v) : (k, v) ∈ l := by
  induction l with
  | nil => simp [olookup] at h
  | cons p rest ih =>
    obtain ⟨k', v'⟩ := p
    by_cases hk : k' = k
    · simp [olookup, hk] at h
      subst hk
      subst h
      exact List.mem_cons_self _ _
    · simp [olookup, hk] at h
      exact List.mem_cons_of_mem _ (ih h)

theorem sizeOf_mem_fields : ∀ {f : SFields} {kv : String × SVal},
    kv ∈ f.toList → sizeOf kv.2 < sizeOf f
  | .nil, _, h => by simp at h
  | .cons k v tl, kv, h => by
    rcases List.mem_cons.mp (by simpa using h) with h | h
    · subst h
      simp
      omega
    · have := @sizeOf_mem_fields tl kv h
      simp
      omega

theorem sizeOf_mem_elems : ∀ {es : SElems} {e : SVal}, e ∈ es.toList → sizeOf e < sizeOf es
  | .nil, _, h => by simp at h
  | .cons v tl, e, h => by
    rcases List.mem_cons.mp (by simpa using h) with h | h
    · subst h
      simp
      omega
    · have := @sizeOf_mem_elems tl e h
      simp
      omega

/-- The field list obtained by spreading an array into an object literal
(`{...arr}`): the elements become values under their stringified indices. -/
def enumFields (es : List SVal) : List (String × SVal) :=
  es.enum.map (fun ie => (toString ie.1, ie.2))

theorem mem_enumFields {kv : String × SVal} {es : List SVal}
    (h : kv ∈ enumFields es) : kv.2 ∈ es := by
  obtain ⟨ie, hmem, heq⟩ := List.mem_map.mp h
  have h1 : es[ie.1]? = some ie.2 := List.mem_enum_iff_getElem?.mp hmem
  have h2 : ie.2 ∈ es := List.getElem?_mem h1
  have h3 : kv.2 = ie.2 := by rw [← heq]
  rw [h3]
  exact h2

/-- The property map a `type:"object"` schema node works with:
`normalized.properties && typeof normalized.properties === 'object'
  ? normalized.properties : {}`.
Only truthy values of object type qualify (arrays are objects whose keys
are the stringified indices); everything else defaults to the empty map. -/
def propsOf : Option SVal → List (String × SVal)
  | some (.obj f) => f.toList
  | some (.arr es) => enumFields es.toList
  | _ => []

theorem sizeOf_mem_propsOf {kv : String × SVal} {f : SFields}
    (h : kv ∈ propsOf (olookup "properties" f.toList)) : sizeOf kv.2 < sizeOf f := by
  cases hp : olookup "properties" f.toList with
  | none => simp [propsOf, hp] at h
  | some p =>
    have hps : sizeOf p < sizeOf f := sizeOf_mem_fields (olookup_mem hp)
    match p with
    | .obj pf =>
      have h1 : sizeOf kv.2 < sizeOf pf := sizeOf_mem_fields (by simpa [propsOf, hp] using h)
      have h2 : sizeOf pf < sizeOf (SVal.obj pf) := by simp
      omega
    | .arr es =>
      have h0 : kv.2 ∈ es.toList := mem_enumFields (by simpa [propsOf, hp] using h)
      have h1 : sizeOf kv.2 < sizeOf es := sizeOf_mem_elems h0
      have h2 : sizeOf es < sizeOf (SVal.arr es) := by simp
      omega
    | .null | .bool _ | .num _ | .str _ => simp [propsOf, hp] at h

/--
`normalizeSchema` (defined inside `convertTools` in the source):
recursively sanitizes a schema node.
- non-objects and `null` are returned unchanged;
- the node is shallow-copied (`{...schemaNode}`; spreading an array
  yields a plain object with stringified-index keys);
- on a `type:"object"` node: the property map defaults to `{}`, the
  guardrail flips `additionalProperties` from `false` to `true` when
  there are no declared properties, every property value is normalized
  recursively, and `properties` is always (re)assigned;
- on a `type:"array"` node with a truthy `items`, `items` is normalized
  recursively.  The two branches are mutually exclusive (they test the
  same unmodified `type` field).
-/
def normalizeSchema (v : SVal) : SVal :=
  match v with
  | .obj fields =>
      if isStr (olookup "type" fields.toList) "object" then
        let props := propsOf (olookup "properties" fields.toList)
        let fields1 :=
          if props.isEmpty && isFalseLit (olookup "additionalProperties" fields.toList) then
            jsSet "additionalProperties" (.bool true) fields.toList
          else fields.toList
        let normProps := props.attach.map (fun kv => (kv.1.1, normalizeSchema kv.1.2))
        .objL (jsSet "properties" (.objL normProps) fields1)
      else if isStr (olookup "type" fields.toList) "array" then
        match hit : olookup "items" fields.toList with
        | some it =>
            if truthy it then .objL (jsSet "items" (normalizeSchema it) fields.toList)
            else .objL fields.toList
        | none => .objL fields.toList
      else .objL fields.toList
  | .arr es => .objL (enumFields es.toList)
  | .null => .null
  | .bool b => .bool b
  | .num n => .num n
  | .str s => .str s
termination_by sizeOf v
decreasing_by
  · have h1 := sizeOf_mem_propsOf kv.2
    simp
    omega
  · have h1 : sizeOf it < sizeOf fields := sizeOf_mem_fields (olookup_mem hit)
    simp
    omega

mutual
/-- JS string coercion (`String(v)` and object-key coercion `map[v]`).
Arrays convert as `Array.prototype.join(",")` over their elements. -/
def jsToString : SVal → String
  | .null => "null"
  | .bool b => if b then "true" else "false"
  | .num n => toString n
  | .str s => s
  | .obj _ => "[object Object]"
  | .arr es => String.intercalate "," (joinParts es)

/-- Element conversion of `Array.prototype.join`: `null`/`undefined`
render as the empty string, everything else via `String(v)`. -/
def joinParts : SElems → List String
  | .nil => []
  | .cons .null tl => "" :: joinParts tl
  | .cons v tl => jsToString v :: joinParts tl
end

/-- Four-digit lowercase hex, for `\uXXXX` escapes. -/
def hex4 (n : Nat) : String :=
  let ds := Nat.toDigits 16 n
  ⟨List.replicate (4 - ds.length) '0' ++ ds⟩

def escapeJsonChar (c : Char) : String :=
  if c = '"' then "\\\""
  else if c = '\\' then "\\\\"
  else if c = '\x08' then "\\b"
  else if c = '\x0c' then "\\f"
  else if c = '\n' then "\\n"
  else if c = '\r' then "\\r"
  else if c = '\t' then "\\t"
  else if c.val < 32 then "\\u" ++ hex4 c.val.toNat
  else String.singleton c

def escapeJson (s : String) : String := String.join (s.toList.map escapeJsonChar)

def quoteJson (s : String) : String := "\"" ++ escapeJson s ++ "\""

mutual
/-- `JSON.stringify` on the modelled values.  Field values are never
`undefined` in the model (absent fields are simply not present), so every
field is serialized. -/
def jsonStringify : SVal → String
  | .null => "null"
  | .bool b => if b then "true" else "false"
  | .num n => toString n
  | .str s => quoteJson s
  | .arr es => "[" ++ String.intercalate "," (jsonElems es) ++ "]"
  | .obj f => "\x7b" ++ String.intercalate "," (jsonFields f) ++ "\x7d"

/-- Serialized array elements, in order. -/
def jsonElems : SElems → List String
  | .nil => []
  | .cons v tl => jsonStringify v :: jsonElems tl

/-- Serialized object fields, in order. -/
def jsonFields : SFields → List String
  | .nil => []
  | .cons k v tl => (quoteJson k ++ ":" ++ jsonStringify v) :: jsonFields tl
end

/-- `convertTools`, per element: records already in OpenAI shape
(`type === "function"` with a truthy `function` payload) pass through
verbatim; otherwise the record is rebuilt from the KeyStudio fields with
`normalizeSchema` applied to the extracted parameter schema. -/
def convertTool (tool : SVal) : SVal :=
  if isStr (getProp tool "type") "function" && otruthy (getProp tool "function") then
    tool
  else
    let functionName := jsOrD (getProp tool "alias") (jsOrD (getProp tool "name") (.str "unknown_function"))
    let description := jsOrD (getProp tool "description") (.str "")
    let parameters :=
      if otruthy (getProp tool "config") && otruthy (oget (getProp tool "config") "schema") then
        normalizeSchema ((oget (getProp tool "config") "schema").getD .null)
      else if otruthy (getProp tool "function") && otruthy (oget (getProp tool "function") "parameters") then
        normalizeSchema ((oget (getProp tool "function") "parameters").getD .null)
      else
        .objL [("type", .str "object"), ("properties", .objL []), ("required", .arrL [])]
    .objL [("type", .str "function"),
           ("function", .objL [("name", functionName), ("description", description),
                               ("parameters", parameters)])]

/-- `convertTools`: map `convertTool` over the input list. -/
def convertTools (inputTools : List SVal) : List SVal := inputTools.map convertTool

/-- `buildToolNameMap`: one pass over the tool list, writing map entries
with JS object-key coercion (`map[k] = v`). -/
def buildToolNameMap (inputTools : List SVal) : List (String × SVal) :=
  inputTools.foldl (fun map tool =>
    if isStr (getProp tool "type") "function" && otruthy (getProp tool "function") &&
       otruthy (oget (getProp tool "function") "name") then
      let fn := (oget (getProp tool "function") "name").getD .null
      jsSet (jsToString fn) fn map
    else
      let finalName := jsOrD (getProp tool "alias") (jsOrD (getProp tool "name") (.str "unknown_function"))
      let map1 :=
        if otruthy (getProp tool "name") then
          jsSet (jsToString ((getProp tool "name").getD .null)) finalName map
        else map
      if otruthy (getProp tool "alias") then
        jsSet (jsToString ((getProp tool "alias").getD .null)) finalName map1
      else map1) []

/-- `convertMessageContent`: strings pass through; content-block arrays
keep the `text` of truthy `type:"text"` blocks and join them with
newlines (the join coerces each kept text value to a string); other
non-null objects are JSON-stringified; everything else is
`String(content || '')`. -/
def convertMessageContent : Option SVal → String
  | some (.str s) => s
  | some (.arr items) =>
      String.intercalate "\n"
        ((items.toList.filter
            (fun it => isStr (getProp it "type") "text" && otruthy (getProp it "text"))).map
          (fun it => jsToString ((getProp it "text").getD .null)))
  | some (.obj f) => jsonStringify (.obj f)
  | some (.num n) => if n = 0 then "" else toString n
  | some (.bool b) => if b then "true" else ""
  | some .null => ""
  | none => ""

/-- The whitespace class of `String.prototype.trim` (ASCII whitespace,
NBSP, BOM, line/paragraph separators). -/
def jsWhitespace (c : Char) : Bool :=
  c = ' ' || c = '\t' || c = '\n' || c = '\r' || c.val = 11 || c.val = 12 ||
  c.val = 160 || c.val = 0x2028 || c.val = 0x2029 || c.val = 0xFEFF

/-- `String.prototype.trim`. -/
def jsTrim (s : String) : String :=
  ⟨((s.toList.dropWhile jsWhitespace).reverse.dropWhile jsWhitespace).reverse⟩

/-- One anchored attempt of the regex `/Executed \*\*([^*]+)\*\*/i`:
case-insensitive literal `Executed **`, then a maximal nonempty run of
non-`*` characters, then `**`. -/
def execCaptureAt (l : List Char) : Option String :=
  let pat := "executed **".toList
  if (l.take pat.length).map Char.toLower = pat then
    let rest := l.drop pat.length
    let cap := rest.takeWhile (fun c => c ≠ '*')
    if !cap.isEmpty && (rest.drop cap.length).take 2 = ['*', '*'] then
      some ⟨cap⟩
    else none
  else none

/-- Left-to-right scan of the subject string for the first match of the
pattern, as `String.prototype.match` does. -/
def execSearch : List Char → Option String
  | [] => none
  | c :: rest =>
      match execCaptureAt (c :: rest) with
      | some cap => some cap
      | none => execSearch rest

/-- The identifier of one assistant tool call: its own `id` when truthy,
else the synthesized `call_<Date.now()>_<i>_<idx>` template (the model
receives the `Date.now()` reading as the explicit input `now`). -/
def callIdOf (now i : Nat) (ic : Nat × SVal) : SVal :=
  jsOrD (getProp ic.2 "id")
    (.str ("call_" ++ toString now ++ "_" ++ toString i ++ "_" ++ toString ic.1))

/-- Raw name/arguments extraction for one tool call: the KeyStudio shape
`{name, args}` first, then the OpenAI-like shape
`{function: {name, arguments}}` overrides both when its name is truthy;
string arguments pass through unchanged. -/
def rawNameArgs (call : SVal) : SVal × SVal :=
  let r0 : SVal × SVal := (.str "", .objL [])
  let r1 :=
    if otruthy (getProp call "name") then
      ((getProp call "name").getD .null, jsOrD (getProp call "args") (.objL []))
    else r0
  if otruthy (getProp call "function") && otruthy (oget (getProp call "function") "name") then
    let fn := (oget (getProp call "function") "name").getD .null
    let fargs := oget (getProp call "function") "arguments"
    match fargs with
    | some (.str s) => (fn, .str s)
    | _ => (fn, jsOrD fargs (.objL []))
  else r1

/-- Name-recovery heuristic plus final name lookup: when the raw name is
not a truthy entry of the name map and the immediately following
transcript message is truthy, the next message's normalized content is
searched for `Executed **<name>**` and a truthy capture (trimmed)
replaces the raw name; the final name is the map entry for the (possibly
corrected) raw name when truthy, else the raw name itself. -/
def resolveName (toolNameMap : List (String × SVal)) (next? : Option SVal) (rawName : SVal) : SVal :=
  let rawName1 :=
    if !otruthy (olookup (jsToString rawName) toolNameMap) &&
       (match next? with | some nv => truthy nv | none => false) then
      let nextContent := convertMessageContent (oget next? "content")
      match execSearch nextContent.toList with
      | some cap => if cap ≠ "" then .str (jsTrim cap) else rawName
      | none => rawName
    else rawName
  jsOrD (olookup (jsToString rawName1) toolNameMap) rawName1

/-- One normalized tool-call entry of an assistant message. -/
def normCall (toolNameMap : List (String × SVal)) (next? : Option SVal) (now i : Nat)
    (ic : Nat × SVal) : SVal :=
  let callId := callIdOf now i ic
  let rn := (rawNameArgs ic.2).1
  let ra := (rawNameArgs ic.2).2
  let finalName := resolveName toolNameMap next? rn
  let argumentsString :=
    match ra with
    | .str s => s
    | v => jsonStringify (if truthy v then v else .objL [])
  .objL [("id", callId), ("type", .str "function"),
         ("function", .objL [("name", finalName), ("arguments", .str argumentsString)])]

/-- The allowed standard roles (`allowedRoles` in the source). -/
def stdRoles : List String := ["system", "user", "assistant", "tool", "function", "developer"]

/-- The guard of the assistant-with-tool-calls branch:
`msg.role === 'assistant' && Array.isArray(msg.tool_calls) &&
msg.tool_calls.length > 0`. -/
def isAssistantWithCalls (msg : SVal) : Bool :=
  isStr (getProp msg "role") "assistant" &&
  (match getProp msg "tool_calls" with
   | some (.arr cs) => !cs.toList.isEmpty
   | _ => false)

/-- The emitted assistant-with-tool-calls message
(`content || ''` is the identity on an already-string content). -/
def mkAssistantMsg (content : String) (outCalls : List SVal) : SVal :=
  .objL [("role", .str "assistant"), ("content", .str content), ("tool_calls", .arrL outCalls)]

/-- The emitted tool-response message pairing a pending call id. -/
def mkToolMsg (id : SVal) (content : String) : SVal :=
  .objL [("role", .str "tool"), ("tool_call_id", id), ("content", .str content)]

/-- The generically emitted message. -/
def mkPlainMsg (finalRole : SVal) (content : String) : SVal :=
  .objL [("role", finalRole), ("content", .str content)]

/-- The `tool_calls` list of a transcript message (empty unless it is an
array). -/
def callsOf (msg : SVal) : List SVal :=
  match getProp msg "tool_calls" with
  | some (.arr cs) => cs.toList
  | _ => []

/-- Generic emission: drop the message when its normalized content is
empty or whitespace-only (`!content || content.trim() === ''`), else emit
`{role: finalRole, content}`. -/
def cmEmitPlain (queue : List SVal) (content : String) (finalRole : SVal) :
    List SVal × List SVal :=
  if content = "" || jsTrim content = "" then ([], queue)
  else ([mkPlainMsg finalRole content], queue)

/-- Pop the pending queue and emit a `tool` message carrying the popped
id (only ever used under a nonempty-queue guard). -/
def cmConsume (queue : List SVal) (content : String) : List SVal × List SVal :=
  match queue with
  | id :: q2 => ([mkToolMsg id content], q2)
  | [] => ([], queue)

/-- The non-assistant arm of the `convertMessages` loop body: role
determination from the allowed set, the builder node-type hint, and the
pending queue, with tool-response emission exiting early. -/
def cmStepOther (queue : List SVal) (content : String) (roleOpt nodeTypeOpt : Option SVal) :
    List SVal × List SVal :=
  if (match roleOpt with | some (.str r) => stdRoles.contains r | _ => false) then
    cmEmitPlain queue content (roleOpt.getD .null)
  else if otruthy nodeTypeOpt then
    if isStr nodeTypeOpt "tool" || isStr nodeTypeOpt "script" then
      (if !queue.isEmpty then cmConsume queue content
       else cmEmitPlain queue content (.str "assistant"))
    else
      -- `llm`/`agent` hints and any other truthy hint both yield `assistant`
      cmEmitPlain queue content (.str "assistant")
  else if !queue.isEmpty then cmConsume queue content
  else cmEmitPlain queue content (.str "assistant")

/-- One iteration of the `convertMessages` loop: from the current
message, the immediately following transcript message (used by the name
heuristic) and the pending queue, produce the emitted messages (zero or
one) and the updated queue. -/
def cmStep (toolNameMap : List (String × SVal)) (now i : Nat) (msg : SVal) (next? : Option SVal)
    (queue : List SVal) : List SVal × List SVal :=
  let content := convertMessageContent (getProp msg "content")
  if isAssistantWithCalls msg then
    ([mkAssistantMsg content ((callsOf msg).enum.map (normCall toolNameMap next? now i))],
     queue ++ (callsOf msg).enum.map (callIdOf now i))
  else
    cmStepOther queue content (getProp msg "role")
      (oget (oget (getProp msg "additional_kwargs") "node_metadata") "nodeType")

/-- The left-to-right fold of `convertMessages`: `i` is the index of the
head of the remaining message list within the full transcript, and the
next transcript message is the head of the tail. -/
def cmGo (toolNameMap : List (String × SVal)) (now : Nat) :
    List SVal → Nat → List SVal → List SVal
  | [], _, _ => []
  | m :: rest, i, queue =>
      let s := cmStep toolNameMap now i m rest.head? queue
      s.1 ++ cmGo toolNameMap now rest (i + 1) s.2

/-- `convertMessages(inputMessages, toolNameMap)`: single pass with an
initially empty pending-tool-call queue.  `now` is the `Date.now()`
reading used for synthesized call ids, made an explicit input of the
model. -/
def convertMessages (inputMessages : List SVal) (toolNameMap : List (String × SVal))
    (now : Nat) : List SVal :=
  cmGo toolNameMap now inputMessages 0 []

/-- The conversion pipeline run by `generateCurl`: convert the tools,
build the name map from the same tool list, convert the messages. -/
def runPipeline (now : Nat) (inputTools inputMessages : List SVal) : List SVal × List SVal :=
  (convertTools inputTools, convertMessages inputMessages (buildToolNameMap inputTools) now)

/-! ### Unfolding and guardrail lemmas for `normalizeSchema` -/

/-- The recursive normalization of a property map, entrywise. -/
def normProperties (props : List (String × SVal)) : List (String × SVal) :=
  props.map (fun kv => (kv.1, normalizeSchema kv.2))

theorem normalizeSchema_obj (f : SFields) :
    normalizeSchema (.obj f) =
      if isStr (olookup "type" f.toList) "object" then
        let props := propsOf (olookup "properties" f.toList)
        let fields1 :=
          if props.isEmpty && isFalseLit (olookup "additionalProperties" f.toList) then
            jsSet "additionalProperties" (.bool true) f.toList
          else f.toList
        .objL (jsSet "properties" (.objL (normProperties props)) fields1)
      else if isStr (olookup "type" f.toList) "array" then
        match olookup "items" f.toList with
        | some it =>
            if truthy it then .objL (jsSet "items" (normalizeSchema it) f.toList)
            else .objL f.toList
        | none => .objL f.toList
      else .objL f.toList := by
  rw [normalizeSchema]
  have hmap : (propsOf (olookup "properties" f.toList)).attach.map
      (fun (kv : {x // x ∈ propsOf (olookup "properties" f.toList)}) =>
        (kv.1.1, normalizeSchema kv.1.2))
      = normProperties (propsOf (olookup "properties" f.toList)) :=
    List.attach_map_val (propsOf (olookup "properties" f.toList))
      (fun kv => (kv.1, normalizeSchema kv.2))
  simp only [hmap]
  cases olookup "items" f.toList <;> rfl

theorem guardrail_fires {f : SFields}
    (hty : isStr (olookup "type" f.toList) "object" = true)
    (hprops : propsOf (olookup "properties" f.toList) = [])
    (hap : isFalseLit (olookup "additionalProperties" f.toList) = true) :
    getProp (normalizeSchema (.obj f)) "additionalProperties" = some (.bool true) := by
  rw [normalizeSchema_obj]
  simp only [hty, hprops, hap, if_true, List.isEmpty_nil, Bool.true_and]
  have h1 : ("additionalProperties" : String) ≠ "properties" := by decide
  simp [olookup_jsSet_ne _ _ h1, olookup_jsSet_self]

theorem guardrail_skipped {f : SFields}
    (hty : isStr (olookup "type" f.toList) "object" = true)
    (hprops : propsOf (olookup "properties" f.toList) ≠ []) :
    getProp (normalizeSchema (.obj f)) "additionalProperties"
      = olookup "additionalProperties" f.toList := by
  rw [normalizeSchema_obj]
  have h0 : (propsOf (olookup "properties" f.toList)).isEmpty = false :=
    List.isEmpty_eq_false.mpr hprops
  simp only [hty, h0, if_true, Bool.false_and, if_false]
  have h1 : ("additionalProperties" : String) ≠ "properties" := by decide
  simp [olookup_jsSet_ne _ _ h1]

theorem normalizeSchema_arr (es : SElems) :
    normalizeSchema (.arr es) = .objL (enumFields es.toList) := by
  rw [normalizeSchema]

theorem normalizeSchema_null : normalizeSchema .null = .null := by rw [normalizeSchema]

theorem normalizeSchema_bool (b : Bool) : normalizeSchema (.bool b) = .bool b := by
  rw [normalizeSchema]

theorem normalizeSchema_num (n : Int) : normalizeSchema (.num n) = .num n := by
  rw [normalizeSchema]

theorem normalizeSchema_str (s : String) : normalizeSchema (.str s) = .str s := by
  rw [normalizeSchema]

/-- C3: for every schema node of type `"object"`: if its properties map
is empty (or absent) and its `additionalProperties` field equals `false`,
the node returned by `normalizeSchema` has `additionalProperties` equal
to `true`; if its properties map is non-empty, the returned node's
`additionalProperties` field is identical to the input's. -/
theorem claim_c3_guardrail (f : SFields)
    (hty : isStr (olookup "type" f.toList) "object" = true) :
    (propsOf (olookup "properties" f.toList) = [] →
        isFalseLit (olookup "additionalProperties" f.toList) = true →
        getProp (normalizeSchema (.obj f)) "additionalProperties" = some (.bool true))
      ∧ (propsOf (olookup "properties" f.toList) ≠ [] →
        getProp (normalizeSchema (.obj f)) "additionalProperties"
          = olookup "additionalProperties" f.toList) :=
  ⟨fun h1 h2 => guardrail_fires hty h1 h2, fun h1 => guardrail_skipped hty h1⟩

theorem claim_c3_guardrail_witness :
    getProp (normalizeSchema (.obj (SFields.ofList
        [("type", .str "object"), ("additionalProperties", .bool false)])))
        "additionalProperties" = some (.bool true)
    ∧ getProp (normalizeSchema (.obj (SFields.ofList
        [("type", .str "object"),
         ("properties", .objL [("a", .objL [("type", .str "string")])]),
         ("additionalProperties", .bool false)])))
        "additionalProperties"
      = olookup "additionalProperties" (SFields.ofList
        [("type", .str "object"),
         ("properties", .objL [("a", .objL [("type", .str "string")])]),
         ("additionalProperties", .bool false)]).toList :=
  ⟨(claim_c3_guardrail _ (by decide)).1 (by decide) (by decide),
   (claim_c3_guardrail _ (by decide)).2 (by decide)⟩

/-! ### Recursive coverage of the guardrail (nested object/array chains) -/

theorem olookup_normProperties (k : String) (props : List (String × SVal)) :
    olookup k (normProperties props) = (olookup k props).map normalizeSchema := by
  induction props with
  | nil => simp [normProperties]
  | cons p tl ih =>
    obtain ⟨k', v'⟩ := p
    by_cases h : k' = k
    · simp [normProperties, h]
    · simpa [normProperties, h] using ih

theorem normalizeSchema_obj_shape (f : SFields) :
    ∃ l, normalizeSchema (.obj f) = .objL l := by
  rw [normalizeSchema_obj]
  split
  · exact ⟨_, rfl⟩
  · split
    · cases holookup : olookup "items" f.toList with
      | some it =>
        simp only [holookup]
        split
        · exact ⟨_, rfl⟩
        · exact ⟨_, rfl⟩
      | none =>
        simp only [holookup]
        exact ⟨_, rfl⟩
    · exact ⟨_, rfl⟩

theorem truthy_normalizeSchema {v : SVal} (h : truthy v = true) :
    truthy (normalizeSchema v) = true := by
  cases v with
  | obj f =>
    obtain ⟨l, hl⟩ := normalizeSchema_obj_shape f
    rw [hl]
    rfl
  | arr es =>
    rw [normalizeSchema_arr]
    rfl
  | null => simpa [truthy] using h
  | bool b => rw [normalizeSchema_bool]; exact h
  | num n => rw [normalizeSchema_num]; exact h
  | str s => rw [normalizeSchema_str]; exact h

/-- One step of a nested object/array chain: descend into a declared
property of a `type:"object"` node, or into the truthy `items` of a
`type:"array"` node — exactly the descents `normalizeSchema` recurses
along. -/
inductive PStep where
  | prop (k : String)
  | items
deriving Repr, DecidableEq

/-- Follow a chain of descents through a schema. -/
def getPath : SVal → List PStep → Option SVal
  | v, [] => some v
  | .obj fields, .prop k :: rest =>
      if isStr (olookup "type" fields.toList) "object" then
        match olookup k (propsOf (olookup "properties" fields.toList)) with
        | some sub => getPath sub rest
        | none => none
      else none
  | .obj fields, .items :: rest =>
      if isStr (olookup "type" fields.toList) "array" then
        match olookup "items" fields.toList with
        | some it => if truthy it then getPath it rest else none
        | none => none
      else none
  | _, _ :: _ => none

theorem isStr_ne {o : Option SVal} {a b : String} (h : isStr o a = true) (hne : b ≠ a) :
    isStr o b = false := by
  match o with
  | none => simp [isStr] at h
  | some (.str s) =>
    simp [isStr] at h ⊢
    subst h
    exact fun hb => hne hb.symm
  | some .null | some (.bool _) | some (.num _) | some (.arr _) | some (.obj _) =>
    simp [isStr] at h

/-- The field list of the object produced by the `type:"object"` branch
of `normalizeSchema`. -/
def normObjFields (f : SFields) : List (String × SVal) :=
  jsSet "properties"
    (.objL (normProperties (propsOf (olookup "properties" f.toList))))
    (if (propsOf (olookup "properties" f.toList)).isEmpty &&
        isFalseLit (olookup "additionalProperties" f.toList) then
      jsSet "additionalProperties" (.bool true) f.toList
    else f.toList)

theorem normalizeSchema_objBranch {f : SFields}
    (hty : isStr (olookup "type" f.toList) "object" = true) :
    normalizeSchema (.obj f) = .objL (normObjFields f) := by
  rw [normalizeSchema_obj, if_pos hty]
  rfl

theorem normObjFields_type (f : SFields) :
    olookup "type" (normObjFields f) = olookup "type" f.toList := by
  unfold normObjFields
  rw [olookup_jsSet_ne _ _ (by decide)]
  split
  · rw [olookup_jsSet_ne _ _ (by decide)]
  · rfl

theorem normObjFields_props (f : SFields) :
    olookup "properties" (normObjFields f)
      = some (.objL (normProperties (propsOf (olookup "properties" f.toList)))) := by
  unfold normObjFields
  exact olookup_jsSet_self _ _ _

@[simp] theorem propsOf_objL (l : List (String × SVal)) : propsOf (some (.objL l)) = l := by
  simp [propsOf, SVal.objL]

theorem normalizeSchema_arrBranch {f : SFields} {it : SVal}
    (hty : isStr (olookup "type" f.toList) "array" = true)
    (hit : olookup "items" f.toList = some it) (htr : truthy it = true) :
    normalizeSchema (.obj f) = .objL (jsSet "items" (normalizeSchema it) f.toList) := by
  have hobj : isStr (olookup "type" f.toList) "object" = false :=
    isStr_ne hty (show ("object" : String) ≠ "array" by decide)
  rw [normalizeSchema_obj]
  rw [if_neg (by simp [hobj]), if_pos hty]
  simp only [hit]
  rw [if_pos htr]

/-- Normalization commutes with following a chain: the node reached at a
chain in the input reappears, normalized, at the same chain in the
output. -/
theorem getPath_normalizeSchema : ∀ (π : List PStep) (v m : SVal),
    getPath v π = some m → getPath (normalizeSchema v) π = some (normalizeSchema m)
  | [], v, m, h => by
    simp [getPath] at h
    subst h
    simp [getPath]
  | .prop k :: rest, v, m, h => by
    match v with
    | .obj fields =>
      simp only [getPath] at h
      by_cases hty : isStr (olookup "type" fields.toList) "object" = true
      · rw [if_pos hty] at h
        cases hsub : olookup k (propsOf (olookup "properties" fields.toList)) with
        | none => rw [hsub] at h; simp at h
        | some sub =>
          rw [hsub] at h
          replace h : getPath sub rest = some m := h
          have hrec := getPath_normalizeSchema rest sub m h
          rw [normalizeSchema_objBranch hty]
          show getPath (.obj (SFields.ofList (normObjFields fields))) (.prop k :: rest) = _
          simp only [getPath, toList_ofList_fields]
          rw [if_pos (by rw [normObjFields_type]; exact hty)]
          rw [normObjFields_props]
          have hlook : olookup k (propsOf (some (SVal.objL
              (normProperties (propsOf (olookup "properties" fields.toList))))))
              = some (normalizeSchema sub) := by
            rw [propsOf_objL, olookup_normProperties, hsub]
            rfl
          rw [hlook]
          exact hrec
      · rw [if_neg hty] at h
        simp at h
    | .null | .bool _ | .num _ | .str _ | .arr _ => simp [getPath] at h
  | .items :: rest, v, m, h => by
    match v with
    | .obj fields =>
      simp only [getPath] at h
      by_cases hty : isStr (olookup "type" fields.toList) "array" = true
      · rw [if_pos hty] at h
        cases hit : olookup "items" fields.toList with
        | none => rw [hit] at h; simp at h
        | some it =>
          rw [hit] at h
          replace h : (if truthy it = true then getPath it rest else none) = some m := h
          by_cases htr : truthy it = true
          · rw [if_pos htr] at h
            have hrec := getPath_normalizeSchema rest it m h
            rw [normalizeSchema_arrBranch hty hit htr]
            show getPath (.obj (SFields.ofList (jsSet "items" (normalizeSchema it)
              fields.toList))) (.items :: rest) = _
            simp only [getPath, toList_ofList_fields]
            rw [if_pos (by rw [olookup_jsSet_ne _ _ (by decide)]; exact hty)]
            rw [olookup_jsSet_self]
            show (if truthy (normalizeSchema it) = true then getPath (normalizeSchema it) rest
              else none) = some (normalizeSchema m)
            rw [if_pos (truthy_normalizeSchema htr)]
            exact hrec
          · rw [if_neg htr] at h
            simp at h
      · rw [if_neg hty] at h
        simp at h
    | .null | .bool _ | .num _ | .str _ | .arr _ => simp [getPath] at h

/-- C4: for every schema with nested object/array chains of arbitrary
depth, `normalizeSchema` applies the empty-properties guardrail at every
object-typed node of the chain, not only at the root: a node of type
`"object"` with an empty property map and `additionalProperties === false`
reached along a chain in the input has `additionalProperties: true` at
the same chain in the output. -/
theorem claim_c4_recursive_guardrail (v : SVal) (π : List PStep) (f : SFields)
    (hnode : getPath v π = some (.obj f))
    (hty : isStr (olookup "type" f.toList) "object" = true)
    (hprops : propsOf (olookup "properties" f.toList) = [])
    (hap : isFalseLit (olookup "additionalProperties" f.toList) = true) :
    oget (getPath (normalizeSchema v) π) "additionalProperties" = some (.bool true) := by
  have h1 := getPath_normalizeSchema π v _ hnode
  rw [h1]
  simpa [oget] using guardrail_fires hty hprops hap

theorem claim_c4_recursive_guardrail_witness :
    oget (getPath (normalizeSchema (.objL
        [("type", .str "object"),
         ("properties", .objL [("a", .objL
            [("type", .str "array"),
             ("items", .objL [("type", .str "object"),
                              ("additionalProperties", .bool false)])])])]))
        [PStep.prop "a", PStep.items]) "additionalProperties"
      = some (.bool true) :=
  claim_c4_recursive_guardrail _ _
    (SFields.ofList [("type", .str "object"), ("additionalProperties", .bool false)])
    (by decide) (by decide) (by decide) (by decide)

/-! ### Pass-through and output-shape properties of `convertTools` -/

theorem convertTool_passthrough {t : SVal}
    (h1 : isStr (getProp t "type") "function" = true)
    (h2 : otruthy (getProp t "function") = true) :
    convertTool t = t := by
  unfold convertTool
  rw [if_pos (by simp [h1, h2])]

/-- C6: a record already in target shape (`type === "function"` with a
truthy `function` payload) is returned by `convertTools` unchanged, in
place: the exact input element, with no re-normalization of its schema. -/
theorem claim_c6_passthrough (pre post : List SVal) (t : SVal)
    (h1 : isStr (getProp t "type") "function" = true)
    (h2 : otruthy (getProp t "function") = true) :
    convertTools (pre ++ t :: post) = convertTools pre ++ t :: convertTools post := by
  simp [convertTools, convertTool_passthrough h1 h2]

theorem claim_c6_passthrough_witness :
    convertTools ([] ++ SVal.objL [("type", .str "function"),
        ("function", .objL [("name", .str "f"),
                            ("parameters", .objL [("type", .str "object")])])] :: [])
      = convertTools [] ++ SVal.objL [("type", .str "function"),
        ("function", .objL [("name", .str "f"),
                            ("parameters", .objL [("type", .str "object")])])] :: convertTools [] :=
  claim_c6_passthrough [] [] _ (by decide) (by decide)

/-- The `function.<k>` field of a converted tool record. -/
def funcField (k : String) (m : SVal) : Option SVal := oget (getProp m "function") k

/-- A present, non-empty string. -/
def isNonEmptyStrOpt : Option SVal → Bool
  | some (.str s) => decide (s ≠ "")
  | _ => false

/-- A present object value (an object-shaped node, never null/undefined). -/
def isObjSome : Option SVal → Bool
  | some (.obj _) => true
  | _ => false

/-- C2 as stated: for every input sequence, every element of the output
of `convertTools` has a non-empty string `function.name` and an
object-shaped `function.parameters`. -/
def c2Claim : Prop := ∀ (tools : List SVal) (m : SVal), m ∈ convertTools tools →
  isNonEmptyStrOpt (funcField "name" m) = true ∧ isObjSome (funcField "parameters" m) = true

/-- C2 counterexample: a record already in target shape with an empty
`function.name` and no `function.parameters` passes through verbatim, so
the output element violates both parts of the claimed invariant. -/
theorem claim_c2_counterexample : ¬ c2Claim := by
  intro h
  have hm := h [SVal.objL [("type", .str "function"), ("function", .objL [("name", .str "")])]]
    (SVal.objL [("type", .str "function"), ("function", .objL [("name", .str "")])])
    (by decide)
  exact absurd hm.1 (by decide)

/-- A field that is absent or holds a string. -/
def optStrOrAbsent : Option SVal → Bool
  | some (.str _) => true
  | none => true
  | _ => false

/-- A field that is an object whenever it is truthy. -/
def optObjIfTruthy : Option SVal → Bool
  | some v => !truthy v || (match v with | .obj _ => true | _ => false)
  | none => true

theorem jsOrD_nonempty_str {a b : Option SVal}
    (ha : optStrOrAbsent a = true) (hb : optStrOrAbsent b = true) :
    isNonEmptyStrOpt (some (jsOrD a (jsOrD b (.str "unknown_function")))) = true := by
  match a with
  | some (.str sa) =>
    by_cases hsa : sa = ""
    · subst hsa
      match b with
      | some (.str sb) =>
        by_cases hsb : sb = ""
        · subst hsb
          decide
        · simp [jsOrD, truthy, hsb, isNonEmptyStrOpt]
      | none => decide
      | some .null | some (.bool _) | some (.num _) | some (.arr _) | some (.obj _) =>
        simp [optStrOrAbsent] at hb
    · simp [jsOrD, truthy, hsa, isNonEmptyStrOpt]
  | none =>
    match b with
    | some (.str sb) =>
      by_cases hsb : sb = ""
      · subst hsb
        decide
      · simp [jsOrD, truthy, hsb, isNonEmptyStrOpt]
    | none => decide
    | some .null | some (.bool _) | some (.num _) | some (.arr _) | some (.obj _) =>
      simp [optStrOrAbsent] at hb
  | some .null | some (.bool _) | some (.num _) | some (.arr _) | some (.obj _) =>
    simp [optStrOrAbsent] at ha

/-- An object value. -/
def isObjVal : SVal → Bool
  | .obj _ => true
  | _ => false

theorem isObjVal_normalizeSchema {v : SVal} (h : isObjVal v = true) :
    isObjVal (normalizeSchema v) = true := by
  match v with
  | .obj f =>
    obtain ⟨l, hl⟩ := normalizeSchema_obj_shape f
    rw [hl]
    rfl
  | .null | .bool _ | .num _ | .str _ | .arr _ => simp [isObjVal] at h

/-- C2 amended: restricted to records that are not passed through (not
target-shaped), whose `alias`/`name` fields hold strings when present and
whose `config.schema` / `function.parameters` are objects whenever they
are truthy, the output element has a non-empty string `function.name`
and an object-shaped `function.parameters`. -/
theorem claim_c2_amended (t : SVal)
    (hpass : (isStr (getProp t "type") "function" && otruthy (getProp t "function")) = false)
    (halias : optStrOrAbsent (getProp t "alias") = true)
    (hname : optStrOrAbsent (getProp t "name") = true)
    (hschema : optObjIfTruthy (oget (getProp t "config") "schema") = true)
    (hparams : optObjIfTruthy (oget (getProp t "function") "parameters") = true) :
    isNonEmptyStrOpt (funcField "name" (convertTool t)) = true
      ∧ isObjSome (funcField "parameters" (convertTool t)) = true := by
  unfold convertTool
  rw [if_neg (by simp [hpass])]
  constructor
  · show isNonEmptyStrOpt (some (jsOrD (getProp t "alias")
      (jsOrD (getProp t "name") (.str "unknown_function")))) = true
    exact jsOrD_nonempty_str halias hname
  · show isObjSome (some (if otruthy (getProp t "config") &&
        otruthy (oget (getProp t "config") "schema") then
        normalizeSchema ((oget (getProp t "config") "schema").getD .null)
      else if otruthy (getProp t "function") &&
          otruthy (oget (getProp t "function") "parameters") then
        normalizeSchema ((oget (getProp t "function") "parameters").getD .null)
      else .objL [("type", .str "object"), ("properties", .objL []), ("required", .arrL [])]))
      = true
    have hcase : ∀ (o : Option SVal), optObjIfTruthy o = true → otruthy o = true →
        isObjVal (normalizeSchema (o.getD .null)) = true := by
      intro o ho htr
      match o with
      | some v =>
        have hv : isObjVal v = true := by
          simp [optObjIfTruthy, otruthy] at ho htr
          rcases ho with ho | ho
          · rw [htr] at ho; simp at ho
          · match v with
            | .obj _ => rfl
            | .null | .bool _ | .num _ | .str _ | .arr _ => simp at ho
        exact isObjVal_normalizeSchema hv
      | none => simp [otruthy] at htr
    split
    · next hc =>
      have := hcase _ hschema (by
        rcases Bool.and_eq_true_iff.mp hc with ⟨_, h2⟩
        exact h2)
      match hobj : normalizeSchema ((oget (getProp t "config") "schema").getD .null) with
      | .obj _ => rfl
      | .null | .bool _ | .num _ | .str _ | .arr _ => rw [hobj] at this; simp [isObjVal] at this
    · split
      · next hc =>
        have := hcase _ hparams (by
          rcases Bool.and_eq_true_iff.mp hc with ⟨_, h2⟩
          exact h2)
        match hobj : normalizeSchema ((oget (getProp t "function") "parameters").getD .null) with
        | .obj _ => rfl
        | .null | .bool _ | .num _ | .str _ | .arr _ => rw [hobj] at this; simp [isObjVal] at this
      · rfl

theorem claim_c2_amended_witness :
    isNonEmptyStrOpt (funcField "name" (convertTool (SVal.objL
      [("id", .str "1"), ("name", .str "mytool"), ("type", .str "tool")]))) = true
    ∧ isObjSome (funcField "parameters" (convertTool (SVal.objL
      [("id", .str "1"), ("name", .str "mytool"), ("type", .str "tool")]))) = true :=
  claim_c2_amended _ (by decide) (by decide) (by decide) (by decide) (by decide)

/-! ### Last-wins resolution in `buildToolNameMap` -/

/-- The map writes one record performs in `buildToolNameMap`, in order:
the key after JS object-key coercion and the assigned value. -/
def assignsOf (tool : SVal) : List (String × SVal) :=
  if isStr (getProp tool "type") "function" && otruthy (getProp tool "function") &&
     otruthy (oget (getProp tool "function") "name") then
    [(jsToString ((oget (getProp tool "function") "name").getD .null),
      (oget (getProp tool "function") "name").getD .null)]
  else
    (if otruthy (getProp tool "name") then
       [(jsToString ((getProp tool "name").getD .null),
         jsOrD (getProp tool "alias") (jsOrD (getProp tool "name") (.str "unknown_function")))]
     else []) ++
    (if otruthy (getProp tool "alias") then
       [(jsToString ((getProp tool "alias").getD .null),
         jsOrD (getProp tool "alias") (jsOrD (getProp tool "name") (.str "unknown_function")))]
     else [])

/-- The canonical output name one record resolves to: its own
`function.name` for target-shaped records, else `alias || name ||
"unknown_function"`. -/
def canonicalNameOf (tool : SVal) : SVal :=
  if isStr (getProp tool "type") "function" && otruthy (getProp tool "function") &&
     otruthy (oget (getProp tool "function") "name") then
    (oget (getProp tool "function") "name").getD .null
  else
    jsOrD (getProp tool "alias") (jsOrD (getProp tool "name") (.str "unknown_function"))

/-- Perform a list of map writes in order. -/
def applyAssigns (m : List (String × SVal)) (as' : List (String × SVal)) :
    List (String × SVal) :=
  as'.foldl (fun m' kv => jsSet kv.1 kv.2 m') m

theorem applyAssigns_append (m : List (String × SVal)) (a b : List (String × SVal)) :
    applyAssigns m (a ++ b) = applyAssigns (applyAssigns m a) b := by
  simp [applyAssigns, List.foldl_append]

theorem buildToolNameMap_foldl (tools : List SVal) (m : List (String × SVal)) :
    tools.foldl (fun map tool =>
      if isStr (getProp tool "type") "function" && otruthy (getProp tool "function") &&
         otruthy (oget (getProp tool "function") "name") then
        let fn := (oget (getProp tool "function") "name").getD .null
        jsSet (jsToString fn) fn map
      else
        let finalName := jsOrD (getProp tool "alias")
          (jsOrD (getProp tool "name") (.str "unknown_function"))
        let map1 :=
          if otruthy (getProp tool "name") then
            jsSet (jsToString ((getProp tool "name").getD .null)) finalName map
          else map
        if otruthy (getProp tool "alias") then
          jsSet (jsToString ((getProp tool "alias").getD .null)) finalName map1
        else map1) m
    = applyAssigns m (tools.flatMap assignsOf) := by
  induction tools generalizing m with
  | nil => simp [applyAssigns]
  | cons t rest ih =>
    rw [List.foldl_cons, List.flatMap_cons, applyAssigns_append, ih]
    congr 1
    unfold assignsOf
    split
    · rfl
    · rw [applyAssigns_append]
      by_cases hn : otruthy (getProp t "name") = true <;>
        by_cases ha : otruthy (getProp t "alias") = true <;>
          simp [hn, ha, applyAssigns]

theorem buildToolNameMap_eq_assigns (tools : List SVal) :
    buildToolNameMap tools = applyAssigns [] (tools.flatMap assignsOf) := by
  unfold buildToolNameMap
  exact buildToolNameMap_foldl tools []

theorem assignsOf_value {tool : SVal} {kv : String × SVal} (h : kv ∈ assignsOf tool) :
    kv.2 = canonicalNameOf tool := by
  unfold assignsOf canonicalNameOf at *
  split at h
  · next hc =>
    simp at h
    rw [if_pos hc, h]
  · next hc =>
    rw [if_neg hc]
    rcases List.mem_append.mp h with h1 | h1 <;>
      · split at h1 <;> simp at h1
        rw [h1]

theorem olookup_applyAssigns_not_mem {k : String} {as' : List (String × SVal)}
    (h : k ∉ as'.map Prod.fst) (m : List (String × SVal)) :
    olookup k (applyAssigns m as') = olookup k m := by
  induction as' generalizing m with
  | nil => rfl
  | cons kv rest ih =>
    rw [List.map_cons] at h
    have h1 : k ≠ kv.1 := fun he => h (by rw [he]; exact List.mem_cons_self _ _)
    have h2 : k ∉ rest.map Prod.fst := fun hm => h (List.mem_cons_of_mem _ hm)
    rw [show applyAssigns m (kv :: rest) = applyAssigns (jsSet kv.1 kv.2 m) rest from rfl]
    rw [ih h2]
    exact olookup_jsSet_ne kv.1 k h1 kv.2 m

theorem olookup_applyAssigns_mem {k : String} {c : SVal} {as' : List (String × SVal)}
    (hmem : k ∈ as'.map Prod.fst) (hval : ∀ kv ∈ as', kv.2 = c) (m : List (String × SVal)) :
    olookup k (applyAssigns m as') = some c := by
  induction as' generalizing m with
  | nil => simp at hmem
  | cons kv rest ih =>
    rw [show applyAssigns m (kv :: rest) = applyAssigns (jsSet kv.1 kv.2 m) rest from rfl]
    by_cases hk : k ∈ rest.map Prod.fst
    · exact ih hk (fun p hp => hval p (List.mem_cons_of_mem _ hp)) _
    · have h1 : k = kv.1 := by
        rw [List.map_cons] at hmem
        rcases List.mem_cons.mp hmem with h | h
        · exact h
        · exact absurd h hk
      rw [olookup_applyAssigns_not_mem hk]
      rw [h1, olookup_jsSet_self]
      rw [hval kv (List.mem_cons_self _ _)]

/-- C9: `buildToolNameMap` resolves duplicate identifiers last-wins: when
a record writes an identifier and no later record writes the same
identifier, the map entry for that identifier is the canonical name
derived from that (latest) record. -/
theorem claim_c9_lastwins (ts1 ts2 : List SVal) (t : SVal) (k : String)
    (hmem : k ∈ (assignsOf t).map Prod.fst)
    (hlater : ∀ u ∈ ts2, k ∉ (assignsOf u).map Prod.fst) :
    olookup k (buildToolNameMap (ts1 ++ t :: ts2)) = some (canonicalNameOf t) := by
  rw [buildToolNameMap_eq_assigns]
  rw [List.flatMap_append, List.flatMap_cons, applyAssigns_append, applyAssigns_append]
  have hnot2 : k ∉ (ts2.flatMap assignsOf).map Prod.fst := by
    intro hk
    rw [List.map_flatMap] at hk
    rcases List.mem_flatMap.mp hk with ⟨u, hu, hku⟩
    exact hlater u hu hku
  rw [olookup_applyAssigns_not_mem hnot2]
  exact olookup_applyAssigns_mem hmem (fun kv hkv => assignsOf_value hkv) _

theorem claim_c9_lastwins_witness :
    olookup "search" (buildToolNameMap
      [SVal.objL [("name", .str "search"), ("alias", .str "web_search_v1")],
       SVal.objL [("name", .str "search"), ("alias", .str "web_search_v2")],
       SVal.objL [("name", .str "other")]])
      = some (canonicalNameOf (SVal.objL
          [("name", .str "search"), ("alias", .str "web_search_v2")])) :=
  claim_c9_lastwins [SVal.objL [("name", .str "search"), ("alias", .str "web_search_v1")]]
    [SVal.objL [("name", .str "other")]]
    (SVal.objL [("name", .str "search"), ("alias", .str "web_search_v2")])
    "search" (by decide) (by decide)

/-! ### Queue pairing in `convertMessages` -/

/-- The tool-call ids pushed by one emitted message: the `id` fields of
its `tool_calls` entries. -/
def pushedIds (m : SVal) : List SVal :=
  match getProp m "tool_calls" with
  | some (.arr cs) => cs.toList.filterMap (fun c => getProp c "id")
  | _ => []

/-- The tool-call id consumed by one emitted message: the
`tool_call_id` carried by a `role:"tool"` message. -/
def consumedId (m : SVal) : Option SVal :=
  if isStr (getProp m "role") "tool" then getProp m "tool_call_id" else none

/-- All ids pushed by a message sequence, in order. -/
def pushedAll (out : List SVal) : List SVal := out.flatMap pushedIds

/-- All ids consumed by a message sequence, in order. -/
def consumedAll (out : List SVal) : List SVal := out.filterMap consumedId

@[simp] theorem pushedAll_nil : pushedAll [] = [] := rfl

@[simp] theorem pushedAll_cons (m : SVal) (l : List SVal) :
    pushedAll (m :: l) = pushedIds m ++ pushedAll l := rfl

@[simp] theorem consumedAll_nil : consumedAll [] = [] := rfl

theorem consumedAll_cons (m : SVal) (l : List SVal) :
    consumedAll (m :: l) = match consumedId m with
      | some id => id :: consumedAll l
      | none => consumedAll l := by
  simp [consumedAll, List.filterMap_cons]
  cases consumedId m <;> simp

theorem getProp_normCall_id (toolNameMap : List (String × SVal)) (next? : Option SVal)
    (now i : Nat) (ic : Nat × SVal) :
    getProp (normCall toolNameMap next? now i ic) "id" = some (callIdOf now i ic) := rfl

theorem filterMap_id_normCalls (toolNameMap : List (String × SVal)) (next? : Option SVal)
    (now i : Nat) (l : List (Nat × SVal)) :
    (l.map (normCall toolNameMap next? now i)).filterMap (fun c => getProp c "id")
      = l.map (callIdOf now i) := by
  induction l with
  | nil => rfl
  | cons ic rest ih =>
    simp [List.filterMap_cons, getProp_normCall_id, ih]

theorem consumedId_mkAssistantMsg (content : String) (outCalls : List SVal) :
    consumedId (mkAssistantMsg content outCalls) = none := by
  simp [consumedId, mkAssistantMsg, isStr, SVal.objL, getProp, olookup]

theorem pushedIds_mkAssistantMsg (content : String) (outCalls : List SVal) :
    pushedIds (mkAssistantMsg content outCalls)
      = outCalls.filterMap (fun c => getProp c "id") := by
  simp [pushedIds, mkAssistantMsg, SVal.objL, SVal.arrL, getProp, olookup]

theorem consumedId_mkToolMsg (id : SVal) (content : String) :
    consumedId (mkToolMsg id content) = some id := by
  simp [consumedId, mkToolMsg, isStr, SVal.objL, getProp, olookup]

theorem pushedIds_mkToolMsg (id : SVal) (content : String) :
    pushedIds (mkToolMsg id content) = [] := by
  simp [pushedIds, mkToolMsg, SVal.objL, getProp, olookup]

theorem consumedId_mkPlainMsg (finalRole : SVal) (content : String) :
    consumedId (mkPlainMsg finalRole content) = none := by
  unfold consumedId
  split
  · simp [mkPlainMsg, SVal.objL, getProp, olookup]
  · rfl

theorem pushedIds_mkPlainMsg (finalRole : SVal) (content : String) :
    pushedIds (mkPlainMsg finalRole content) = [] := by
  simp [pushedIds, mkPlainMsg, SVal.objL, getProp, olookup]

theorem cmEmitPlain_classify (queue : List SVal) (content : String) (finalRole : SVal) :
    cmEmitPlain queue content finalRole = ([], queue)
      ∨ cmEmitPlain queue content finalRole = ([mkPlainMsg finalRole content], queue) := by
  unfold cmEmitPlain
  split
  · exact Or.inl rfl
  · exact Or.inr rfl

/-- The non-assistant arm emits nothing, one plain message, or one
tool-response message popping the queue head. -/
theorem cmStepOther_classify (queue : List SVal) (content : String)
    (roleOpt nodeTypeOpt : Option SVal) :
    (cmStepOther queue content roleOpt nodeTypeOpt = ([], queue))
    ∨ (∃ r, cmStepOther queue content roleOpt nodeTypeOpt = ([mkPlainMsg r content], queue))
    ∨ (∃ id q2, queue = id :: q2
        ∧ cmStepOther queue content roleOpt nodeTypeOpt = ([mkToolMsg id content], q2)) := by
  have hplain : ∀ (r : SVal) (e : List SVal × List SVal), e = cmEmitPlain queue content r →
      (e = ([], queue)) ∨ (∃ r', e = ([mkPlainMsg r' content], queue))
      ∨ (∃ id q2, queue = id :: q2 ∧ e = ([mkToolMsg id content], q2)) := by
    intro r e he
    rcases cmEmitPlain_classify queue content r with h | h
    · exact Or.inl (he.trans h)
    · exact Or.inr (Or.inl ⟨r, he.trans h⟩)
  unfold cmStepOther
  split
  · exact hplain _ _ rfl
  · split
    · split
      · split
        · next hq =>
          cases queue with
          | nil => simp at hq
          | cons id q2 => exact Or.inr (Or.inr ⟨id, q2, rfl, rfl⟩)
        · exact hplain _ _ rfl
      · exact hplain _ _ rfl
    · split
      · next hq =>
        cases queue with
        | nil => simp at hq
        | cons id q2 => exact Or.inr (Or.inr ⟨id, q2, rfl, rfl⟩)
      · exact hplain _ _ rfl

/-- Every step of the loop body falls into one of four shapes: emit
nothing; emit one assistant message pushing its call ids; pop the queue
head into a tool-response message; or emit one plain message leaving the
queue alone. -/
theorem cmStep_classify (toolNameMap : List (String × SVal)) (now i : Nat) (msg : SVal)
    (next? : Option SVal) (queue : List SVal) :
    (cmStep toolNameMap now i msg next? queue = ([], queue))
    ∨ (∃ am ids, cmStep toolNameMap now i msg next? queue = ([am], queue ++ ids)
        ∧ consumedId am = none ∧ pushedIds am = ids)
    ∨ (∃ id q2 tm, queue = id :: q2 ∧ cmStep toolNameMap now i msg next? queue = ([tm], q2)
        ∧ consumedId tm = some id ∧ pushedIds tm = [])
    ∨ (∃ gm, cmStep toolNameMap now i msg next? queue = ([gm], queue)
        ∧ consumedId gm = none ∧ pushedIds gm = []) := by
  by_cases hA : isAssistantWithCalls msg = true
  · right; left
    refine ⟨mkAssistantMsg (convertMessageContent (getProp msg "content"))
        ((callsOf msg).enum.map (normCall toolNameMap next? now i)),
      (callsOf msg).enum.map (callIdOf now i), ?_, ?_, ?_⟩
    · unfold cmStep
      rw [if_pos hA]
    · exact consumedId_mkAssistantMsg _ _
    · rw [pushedIds_mkAssistantMsg, filterMap_id_normCalls]
  · have hstep : cmStep toolNameMap now i msg next? queue
        = cmStepOther queue (convertMessageContent (getProp msg "content"))
            (getProp msg "role")
            (oget (oget (getProp msg "additional_kwargs") "node_metadata") "nodeType") := by
      unfold cmStep
      rw [if_neg hA]
    rw [hstep]
    rcases cmStepOther_classify queue (convertMessageContent (getProp msg "content"))
        (getProp msg "role")
        (oget (oget (getProp msg "additional_kwargs") "node_metadata") "nodeType")
      with h | ⟨r, h⟩ | ⟨id, q2, hq, h⟩
    · exact Or.inl h
    · exact Or.inr (Or.inr (Or.inr
        ⟨_, h, consumedId_mkPlainMsg _ _, pushedIds_mkPlainMsg _ _⟩))
    · exact Or.inr (Or.inr (Or.inl
        ⟨id, q2, _, hq, h, consumedId_mkToolMsg _ _, pushedIds_mkToolMsg _ _⟩))

/-- Fold invariant: for any split of the output produced from pending
queue `queue`, the ids consumed by the left part form a prefix of `queue`
followed by the ids the left part itself pushed, in order. -/
theorem cmGo_pairing (toolNameMap : List (String × SVal)) (now : Nat) :
    ∀ (msgs : List SVal) (i : Nat) (queue : List SVal) (pre suf : List SVal),
      cmGo toolNameMap now msgs i queue = pre ++ suf →
      consumedAll pre <+: queue ++ pushedAll pre := by
  intro msgs
  induction msgs with
  | nil =>
    intro i queue pre suf h
    rw [show cmGo toolNameMap now [] i queue = [] from rfl] at h
    cases pre with
    | nil => exact ⟨queue ++ pushedAll [], rfl⟩
    | cons a l => simp at h
  | cons m rest ih =>
    intro i queue pre suf h
    rw [show cmGo toolNameMap now (m :: rest) i queue
        = (cmStep toolNameMap now i m rest.head? queue).1
          ++ cmGo toolNameMap now rest (i + 1)
              (cmStep toolNameMap now i m rest.head? queue).2 from rfl] at h
    rcases cmStep_classify toolNameMap now i m rest.head? queue with
      hc | ⟨am, ids, hc, hcons, hpush⟩ | ⟨id, q2, tm, hq, hc, hcons, hpush⟩ | ⟨gm, hc, hcons, hpush⟩
    · rw [hc] at h
      simp only [List.nil_append] at h
      exact ih (i + 1) queue pre suf h
    · rw [hc] at h
      cases pre with
      | nil => exact ⟨queue ++ pushedAll [], rfl⟩
      | cons p pre' =>
        rw [List.cons_append, List.cons_append, List.nil_append] at h
        have hp : p = am := ((List.cons.injEq _ _ _ _ ▸ h).1).symm
        have hrest : cmGo toolNameMap now rest (i + 1) (queue ++ ids) = pre' ++ suf :=
          (List.cons.injEq _ _ _ _ ▸ h).2
        have hih := ih (i + 1) (queue ++ ids) pre' suf hrest
        subst hp
        rw [consumedAll_cons, hcons, pushedAll_cons, hpush]
        rw [← List.append_assoc]
        exact hih
    · rw [hc] at h
      cases pre with
      | nil => exact ⟨queue ++ pushedAll [], rfl⟩
      | cons p pre' =>
        rw [List.cons_append, List.cons_append, List.nil_append] at h
        have hp : p = tm := ((List.cons.injEq _ _ _ _ ▸ h).1).symm
        have hrest : cmGo toolNameMap now rest (i + 1) q2 = pre' ++ suf :=
          (List.cons.injEq _ _ _ _ ▸ h).2
        obtain ⟨t, ht⟩ := ih (i + 1) q2 pre' suf hrest
        subst hp
        rw [consumedAll_cons, hcons, pushedAll_cons, hpush, hq]
        exact ⟨t, by rw [List.cons_append, ht]; simp⟩
    · rw [hc] at h
      cases pre with
      | nil => exact ⟨queue ++ pushedAll [], rfl⟩
      | cons p pre' =>
        rw [List.cons_append, List.cons_append, List.nil_append] at h
        have hp : p = gm := ((List.cons.injEq _ _ _ _ ▸ h).1).symm
        have hrest : cmGo toolNameMap now rest (i + 1) queue = pre' ++ suf :=
          (List.cons.injEq _ _ _ _ ▸ h).2
        have hih := ih (i + 1) queue pre' suf hrest
        subst hp
        rw [consumedAll_cons, hcons, pushedAll_cons, hpush]
        simpa using hih

/-- C1: in the output of `convertMessages`, for every transcript and
NameMap, the tool-call ids consumed by emitted `role:"tool"` messages
carrying a `tool_call_id` form, at every point of the output sequence, a
prefix of the ids pushed so far by emitted assistant `tool_calls`
entries: every consumed id was previously pushed, is consumed at most
once, and ids are consumed in the FIFO order in which they were pushed. -/
theorem claim_c1_queue_pairing (inputMessages : List SVal)
    (toolNameMap : List (String × SVal)) (now : Nat) (pre suf : List SVal)
    (h : convertMessages inputMessages toolNameMap now = pre ++ suf) :
    consumedAll pre <+: pushedAll pre := by
  have h1 := cmGo_pairing toolNameMap now inputMessages 0 [] pre suf h
  simpa using h1

theorem claim_c1_queue_pairing_witness :
    consumedAll
        [mkAssistantMsg "" [SVal.objL [("id", .str "c1"), ("type", .str "function"),
            ("function", .objL [("name", .str ""), ("arguments", .str "\x7b\x7d")])]],
         mkToolMsg (.str "c1") "result"]
      <+: pushedAll
        [mkAssistantMsg "" [SVal.objL [("id", .str "c1"), ("type", .str "function"),
            ("function", .objL [("name", .str ""), ("arguments", .str "\x7b\x7d")])]],
         mkToolMsg (.str "c1") "result"] :=
  claim_c1_queue_pairing
    [SVal.objL [("role", .str "assistant"),
       ("tool_calls", .arrL [.objL [("id", .str "c1")]])],
     SVal.objL [("role", .str "weird"), ("content", .str "result")]]
    [] 0
    [mkAssistantMsg "" [SVal.objL [("id", .str "c1"), ("type", .str "function"),
        ("function", .objL [("name", .str ""), ("arguments", .str "\x7b\x7d")])]],
     mkToolMsg (.str "c1") "result"]
    [] (by decide)

/-! ### Content dropping and standard `tool` roles -/

theorem cmEmitPlain_drop {content : String} (hw : jsTrim content = "")
    (queue : List SVal) (r : SVal) : cmEmitPlain queue content r = ([], queue) := by
  unfold cmEmitPlain
  rw [if_pos (by simp [hw])]

theorem cmStepOther_drop {content : String} (hw : jsTrim content = "")
    (queue : List SVal) (roleOpt nodeTypeOpt : Option SVal) :
    (cmStepOther queue content roleOpt nodeTypeOpt = ([], queue))
    ∨ (∃ id q2, queue = id :: q2
        ∧ cmStepOther queue content roleOpt nodeTypeOpt = ([mkToolMsg id content], q2)) := by
  unfold cmStepOther
  split
  · exact Or.inl (cmEmitPlain_drop hw _ _)
  · split
    · split
      · split
        · next hq =>
          cases queue with
          | nil => simp at hq
          | cons id q2 => exact Or.inr ⟨id, q2, rfl, rfl⟩
        · exact Or.inl (cmEmitPlain_drop hw _ _)
      · exact Or.inl (cmEmitPlain_drop hw _ _)
    · split
      · next hq =>
        cases queue with
        | nil => simp at hq
        | cons id q2 => exact Or.inr ⟨id, q2, rfl, rfl⟩
      · exact Or.inl (cmEmitPlain_drop hw _ _)

/-- C8: for a transcript message that is not an assistant-with-tool-calls
message, if its normalized content is empty or whitespace-only then the
loop emits no output for it except possibly a tool-response: every
message the step emits carries a consumed `tool_call_id`; in particular a
message not emitted as a tool-response is dropped entirely. -/
theorem claim_c8_content_drop (toolNameMap : List (String × SVal)) (now i : Nat)
    (msg : SVal) (next? : Option SVal) (queue : List SVal)
    (hA : isAssistantWithCalls msg = false)
    (hw : jsTrim (convertMessageContent (getProp msg "content")) = "") :
    (cmStep toolNameMap now i msg next? queue).1.all
      (fun m => (consumedId m).isSome) = true := by
  have hstep : cmStep toolNameMap now i msg next? queue
      = cmStepOther queue (convertMessageContent (getProp msg "content"))
          (getProp msg "role")
          (oget (oget (getProp msg "additional_kwargs") "node_metadata") "nodeType") := by
    unfold cmStep
    rw [if_neg (by simp [hA])]
  rw [hstep]
  rcases cmStepOther_drop hw queue (getProp msg "role")
      (oget (oget (getProp msg "additional_kwargs") "node_metadata") "nodeType")
    with h | ⟨id, q2, hq, h⟩
  · rw [h]
    rfl
  · rw [h]
    simp [List.all_cons, consumedId_mkToolMsg]

theorem claim_c8_content_drop_witness :
    (cmStep [] 0 0 (SVal.objL [("role", .str "user"), ("content", .str "  ")])
        none []).1.all (fun m => (consumedId m).isSome) = true :=
  claim_c8_content_drop [] 0 0 _ none [] (by decide) (by decide)

/-- C10: a message whose role is already the standard `"tool"` and which
has no `tool_calls` is never paired with the pending queue: the queue is
unchanged, and the message is emitted (only when its normalized content
is neither empty nor whitespace-only) as `{role:"tool", content}` with no
`tool_call_id` field. -/
theorem claim_c10_std_tool_role (toolNameMap : List (String × SVal)) (now i : Nat)
    (msg : SVal) (next? : Option SVal) (queue : List SVal)
    (hrole : getProp msg "role" = some (.str "tool"))
    (hnc : getProp msg "tool_calls" = none) :
    (cmStep toolNameMap now i msg next? queue).2 = queue
    ∧ (cmStep toolNameMap now i msg next? queue).1
        = (if jsTrim (convertMessageContent (getProp msg "content")) = "" then []
           else [mkPlainMsg (.str "tool") (convertMessageContent (getProp msg "content"))]) := by
  have hA : isAssistantWithCalls msg = false := by
    simp [isAssistantWithCalls, hrole, isStr]
  have hstep : cmStep toolNameMap now i msg next? queue
      = cmStepOther queue (convertMessageContent (getProp msg "content"))
          (getProp msg "role")
          (oget (oget (getProp msg "additional_kwargs") "node_metadata") "nodeType") := by
    unfold cmStep
    rw [if_neg (by simp [hA])]
  have hvalid : (match getProp msg "role" with
      | some (.str r) => stdRoles.contains r
      | _ => false) = true := by
    rw [hrole]
    decide
  have hother : cmStepOther queue (convertMessageContent (getProp msg "content"))
      (getProp msg "role")
      (oget (oget (getProp msg "additional_kwargs") "node_metadata") "nodeType")
      = cmEmitPlain queue (convertMessageContent (getProp msg "content")) (.str "tool") := by
    unfold cmStepOther
    rw [if_pos hvalid, hrole]
    rfl
  rw [hstep, hother]
  by_cases hcw : jsTrim (convertMessageContent (getProp msg "content")) = ""
  · rw [cmEmitPlain_drop hcw, if_pos hcw]
    exact ⟨rfl, rfl⟩
  · have hne : ¬ (convertMessageContent (getProp msg "content") = "") := by
      intro he
      rw [he] at hcw
      exact hcw rfl
    unfold cmEmitPlain
    rw [if_neg (by simp [hne, hcw]), if_neg hcw]
    exact ⟨rfl, rfl⟩

theorem claim_c10_std_tool_role_witness :
    (cmStep [] 0 0 (SVal.objL [("role", .str "tool"), ("content", .str "out")])
        none [SVal.str "pending"]).2 = [SVal.str "pending"]
    ∧ (cmStep [] 0 0 (SVal.objL [("role", .str "tool"), ("content", .str "out")])
        none [SVal.str "pending"]).1
      = (if jsTrim (convertMessageContent (getProp
            (SVal.objL [("role", .str "tool"), ("content", .str "out")]) "content")) = ""
         then []
         else [mkPlainMsg (.str "tool") (convertMessageContent (getProp
            (SVal.objL [("role", .str "tool"), ("content", .str "out")]) "content"))]) :=
  claim_c10_std_tool_role [] 0 0 _ none [SVal.str "pending"] (by decide) (by decide)

/-! ### Determinism of the pipeline -/

/-- C5 as stated: for every fixed pair of tools array and transcript, two
runs of the pipeline (`convertTools`, `buildToolNameMap`,
`convertMessages`) — hence possibly at two different `Date.now()`
readings — produce identical outputs. -/
def c5Claim : Prop :=
  ∀ (inputTools inputMessages : List SVal) (now1 now2 : Nat),
    runPipeline now1 inputTools inputMessages = runPipeline now2 inputTools inputMessages

/-- C5 counterexample: a tool call without an `id` gets a synthesized
`call_<Date.now()>_<i>_<idx>` identifier, so two runs at clock readings
`0` and `1` differ. -/
theorem claim_c5_counterexample : ¬ c5Claim := by
  intro h
  have h1 := h [] [SVal.objL [("role", .str "assistant"), ("tool_calls", .arrL [.objL []])]] 0 1
  exact absurd h1 (by decide)

/-- Every tool call of the message carries a truthy `id` of its own. -/
def callsHaveIds (m : SVal) : Bool :=
  match getProp m "tool_calls" with
  | some (.arr cs) => cs.toList.all (fun c => otruthy (getProp c "id"))
  | _ => true

theorem callIdOf_now {ic : Nat × SVal} (hid : otruthy (getProp ic.2 "id") = true)
    (now1 now2 i : Nat) : callIdOf now1 i ic = callIdOf now2 i ic := by
  unfold callIdOf jsOrD
  cases hp : getProp ic.2 "id" with
  | none => rw [hp] at hid; simp [otruthy] at hid
  | some v =>
    rw [hp] at hid
    simp only [otruthy] at hid
    show (if truthy v = true then v else _) = (if truthy v = true then v else _)
    rw [if_pos hid, if_pos hid]

theorem normCall_now {ic : Nat × SVal} (hid : otruthy (getProp ic.2 "id") = true)
    (toolNameMap : List (String × SVal)) (next? : Option SVal) (now1 now2 i : Nat) :
    normCall toolNameMap next? now1 i ic = normCall toolNameMap next? now2 i ic := by
  unfold normCall
  rw [callIdOf_now hid now1 now2 i]

theorem callsOf_ids {msg : SVal} (h : callsHaveIds msg = true) :
    ∀ c ∈ callsOf msg, otruthy (getProp c "id") = true := by
  intro c hc
  unfold callsHaveIds at h
  unfold callsOf at hc
  cases hp : getProp msg "tool_calls" with
  | none => rw [hp] at hc; simp at hc
  | some v =>
    rw [hp] at h hc
    match v with
    | .arr cs => exact List.all_eq_true.mp h c hc
    | .null | .bool _ | .num _ | .str _ | .obj _ => simp at hc

theorem mem_enum_snd {α : Type} {l : List α} {ie : Nat × α} (h : ie ∈ l.enum) : ie.2 ∈ l :=
  List.getElem?_mem (List.mem_enum_iff_getElem?.mp h)

theorem cmStep_now {msg : SVal} (hids : callsHaveIds msg = true)
    (toolNameMap : List (String × SVal)) (next? : Option SVal) (queue : List SVal)
    (now1 now2 i : Nat) :
    cmStep toolNameMap now1 i msg next? queue = cmStep toolNameMap now2 i msg next? queue := by
  unfold cmStep
  split
  · have hmap1 : (callsOf msg).enum.map (normCall toolNameMap next? now1 i)
        = (callsOf msg).enum.map (normCall toolNameMap next? now2 i) :=
      List.map_congr_left (fun ic hic =>
        normCall_now (callsOf_ids hids ic.2 (mem_enum_snd hic)) _ _ _ _ _)
    have hmap2 : (callsOf msg).enum.map (callIdOf now1 i)
        = (callsOf msg).enum.map (callIdOf now2 i) :=
      List.map_congr_left (fun ic hic =>
        callIdOf_now (callsOf_ids hids ic.2 (mem_enum_snd hic)) _ _ _)
    rw [hmap1, hmap2]
  · rfl

theorem cmGo_now (toolNameMap : List (String × SVal)) (now1 now2 : Nat) :
    ∀ (msgs : List SVal) (i : Nat) (queue : List SVal),
      (∀ m ∈ msgs, callsHaveIds m = true) →
      cmGo toolNameMap now1 msgs i queue = cmGo toolNameMap now2 msgs i queue := by
  intro msgs
  induction msgs with
  | nil => intro i queue _; rfl
  | cons m rest ih =>
    intro i queue h
    have hstep := cmStep_now (h m (List.mem_cons_self _ _)) toolNameMap rest.head? queue
      now1 now2 i
    show (cmStep toolNameMap now1 i m rest.head? queue).1
        ++ cmGo toolNameMap now1 rest (i + 1) (cmStep toolNameMap now1 i m rest.head? queue).2
      = (cmStep toolNameMap now2 i m rest.head? queue).1
        ++ cmGo toolNameMap now2 rest (i + 1) (cmStep toolNameMap now2 i m rest.head? queue).2
    rw [hstep, ih (i + 1) _ (fun m' hm' => h m' (List.mem_cons_of_mem _ hm'))]

/-- C5 amended: the pipeline is deterministic once the `Date.now()`
reading is fixed (it is a pure function of tools, transcript and clock),
and its output is independent of the clock whenever every assistant tool
call carries a truthy `id` of its own — the clock only enters through
ids synthesized for id-less calls. -/
theorem claim_c5_amended (inputTools inputMessages : List SVal) (now1 now2 : Nat)
    (h : ∀ m ∈ inputMessages, callsHaveIds m = true) :
    runPipeline now1 inputTools inputMessages = runPipeline now2 inputTools inputMessages := by
  unfold runPipeline convertMessages
  rw [cmGo_now (buildToolNameMap inputTools) now1 now2 inputMessages 0 [] h]

theorem claim_c5_amended_witness :
    runPipeline 0 [] [SVal.objL [("role", .str "assistant"),
        ("tool_calls", .arrL [.objL [("id", .str "c1")]])]]
      = runPipeline 1 [] [SVal.objL [("role", .str "assistant"),
        ("tool_calls", .arrL [.objL [("id", .str "c1")]])]] :=
  claim_c5_amended [] _ 0 1 (by decide)

/-! ### Store-level model of `normalizeSchema`

The frame claim — `normalizeSchema` mutates nothing it was given, every
modified node being a fresh copy — is about object identity, which the
value-level model cannot express.  This section models the same algorithm
over an explicit store: JS objects are heap cells addressed by index
(allocation appends; `{...node}` allocates a shallow copy whose field
list shares the references of the original), and every field write names
the cell it updates.  The recursion carries fuel, decremented at each
nested call — a run that exhausts its fuel (which only a cyclic store
could force, where JS overflows the stack) returns its argument — and the
frame property is proved for every fuel. -/

/-- A JS value at the store level. -/
inductive HVal where
  | null
  | bool (b : Bool)
  | num (n : Int)
  | str (s : String)
  | ref (a : Nat)
deriving Repr, DecidableEq

/-- A heap cell: an object's fields in insertion order. -/
abbrev HObj := List (String × HVal)

/-- The store: cells addressed by index, allocation appends. -/
abbrev HHeap := List HObj

/-- First binding of a key (JS property read). -/
def hlookup (k : String) : HObj → Option HVal
  | [] => none
  | (k', v) :: rest => if k' = k then some v else hlookup k rest

/-- JS property write inside one cell. -/
def hjsSet (k : String) (v : HVal) : HObj → HObj
  | [] => [(k, v)]
  | (k', v') :: rest => if k' = k then (k, v) :: rest else (k', v') :: hjsSet k v rest

/-- JS truthiness at the store level (references are objects, always
truthy). -/
def htruthy : HVal → Bool
  | .null => false
  | .bool b => b
  | .num n => decide (n ≠ 0)
  | .str s => decide (s ≠ "")
  | .ref _ => true

/-- `===` with a string literal. -/
def hIsStr (o : Option HVal) (s : String) : Bool :=
  match o with
  | some (.str s') => decide (s' = s)
  | _ => false

/-- `=== false`. -/
def hIsFalse (o : Option HVal) : Bool :=
  match o with
  | some (.bool false) => true
  | _ => false

/-- Write one field of the cell at address `a` (a no-op beyond the end of
the store, which a well-formed run never reaches). -/
def hsetField (h : HHeap) (a : Nat) (k : String) (v : HVal) : HHeap :=
  h.set a (hjsSet k v (h[a]?.getD []))

/-- The `for (const key of propKeys)` loop: normalize `props[key]` (read
from the property cell `pa?` in the current store) with the callback
`rec` and write the result into the fresh `normalizedProps` cell `c`. -/
def normPropsFoldH (rec : HHeap → HVal → HVal × HHeap) (pa? : Option Nat) (c : Nat)
    (keys : List String) (h0 : HHeap) : HHeap :=
  keys.foldl (fun hc k =>
    let pv :=
      match pa? with
      | some pa => (hlookup k (hc[pa]?.getD [])).getD .null
      | none => .null
    let r := rec hc pv
    hsetField r.2 c k r.1) h0

/-- The cell the copy's truthy object-typed `properties` value refers
to, if any. -/
def propCellOf (o : HObj) : Option Nat :=
  match hlookup "properties" o with
  | some (.ref pa) => some pa
  | _ => none

/-- `Object.keys(props)`, captured once from the store `h1`. -/
def propKeysOf (h1 : HHeap) (o : HObj) : List String :=
  match propCellOf o with
  | some pa => (h1[pa]?.getD []).map Prod.fst
  | none => []

/-- The guardrail write on the copy at `b`: no declared properties and
`additionalProperties === false` flips it to `true`. -/
def guardrailH (h1 : HHeap) (b : Nat) (o : HObj) : HHeap :=
  if (propKeysOf h1 o).isEmpty && hIsFalse (hlookup "additionalProperties" o) then
    hsetField h1 b "additionalProperties" (.bool true)
  else h1

/-- The `type:"object"` branch on the copy at `b` of the original fields
`o`: capture the property cell and its keys, apply the guardrail write to
`b`, allocate the `normalizedProps` cell at the end of the store, run the
property loop, and point `b.properties` at the fresh cell. -/
def normObjBranchH (rec : HHeap → HVal → HVal × HHeap) (h1 : HHeap) (b : Nat) (o : HObj) :
    HHeap :=
  if hIsStr (hlookup "type" o) "object" then
    hsetField
      (normPropsFoldH rec (propCellOf o) (guardrailH h1 b o).length (propKeysOf h1 o)
        (guardrailH h1 b o ++ [([] : HObj)]))
      b "properties" (.ref (guardrailH h1 b o).length)
  else h1

/-- The `type:"array"` check on the current copy at `b`: when its `items`
is truthy, normalize it with the callback and write the result into `b`;
the returned value is always the reference to the copy. -/
def normArrPhase (rec : HHeap → HVal → HVal × HHeap) (hA : HHeap) (b : Nat) :
    HVal × HHeap :=
  if hIsStr (hlookup "type" (hA[b]?.getD [])) "array" then
    match hlookup "items" (hA[b]?.getD []) with
    | some it =>
      if htruthy it then
        (.ref b, hsetField (rec hA it).2 b "items" (rec hA it).1)
      else (.ref b, hA)
    | none => (.ref b, hA)
  else (.ref b, hA)

/-- `normalizeSchema` over the explicit store: primitives, `null` and
dead references are returned unchanged; a reference to a live cell is
shallow-copied to the fresh address `h.length` and the two branches run
on the copy. -/
def normalizeSchemaH : Nat → HHeap → HVal → HVal × HHeap
  | 0, h, v => (v, h)
  | fuel + 1, h, v =>
    match v with
    | .ref a =>
      match h[a]? with
      | none => (v, h)
      | some o =>
          normArrPhase (fun hh vv => normalizeSchemaH fuel hh vv)
            (normObjBranchH (fun hh vv => normalizeSchemaH fuel hh vv) (h ++ [o]) h.length o)
            h.length
    | .null | .bool _ | .num _ | .str _ => (v, h)

/-- The store `h'` extends `h`: at least as long, and agreeing with `h`
on every address `h` already holds. -/
def heapExtends (h h' : HHeap) : Prop :=
  h.length ≤ h'.length ∧ ∀ a, a < h.length → h'[a]? = h[a]?

theorem heapExtends_refl (h : HHeap) : heapExtends h h := ⟨le_refl _, fun _ _ => rfl⟩

theorem heapExtends_trans {h h' h'' : HHeap} (h1 : heapExtends h h')
    (h2 : heapExtends h' h'') : heapExtends h h'' := by
  refine ⟨le_trans h1.1 h2.1, fun a ha => ?_⟩
  rw [h2.2 a (lt_of_lt_of_le ha h1.1), h1.2 a ha]

theorem heapExtends_append (h : HHeap) (l : HHeap) : heapExtends h (h ++ l) := by
  refine ⟨by simp, fun a ha => ?_⟩
  simp [List.getElem?_append, ha]

theorem heapExtends_setField {h h' : HHeap} (he : heapExtends h h') {c : Nat}
    (hc : h.length ≤ c) (k : String) (v : HVal) :
    heapExtends h (hsetField h' c k v) := by
  refine ⟨by simpa [hsetField] using he.1, fun a ha => ?_⟩
  unfold hsetField
  rw [List.getElem?_set_ne (by omega), he.2 a ha]

theorem normPropsFoldH_extends {rec : HHeap → HVal → HVal × HHeap}
    (hrec : ∀ hc pv, heapExtends hc (rec hc pv).2) {horig : HHeap} {c : Nat}
    (hc : horig.length ≤ c) (pa? : Option Nat) :
    ∀ (keys : List String) (h0 : HHeap), heapExtends horig h0 →
      heapExtends horig (normPropsFoldH rec pa? c keys h0)
  | [], h0, h0ext => h0ext
  | k :: rest, h0, h0ext => by
    have hstep : heapExtends horig
        (hsetField (rec h0 (match pa? with
          | some pa => (hlookup k (h0[pa]?.getD [])).getD .null
          | none => .null)).2 c k
          (rec h0 (match pa? with
            | some pa => (hlookup k (h0[pa]?.getD [])).getD .null
            | none => .null)).1) :=
      heapExtends_setField (heapExtends_trans h0ext (hrec h0 _)) hc _ _
    exact normPropsFoldH_extends hrec hc pa? rest _ hstep

theorem normObjBranchH_extends {rec : HHeap → HVal → HVal × HHeap}
    (hrec : ∀ hc pv, heapExtends hc (rec hc pv).2) {horig h1 : HHeap} {b : Nat}
    (h1ext : heapExtends horig h1) (hb : horig.length ≤ b) (o : HObj) :
    heapExtends horig (normObjBranchH rec h1 b o) := by
  unfold normObjBranchH
  split
  · have h2ext : heapExtends horig (guardrailH h1 b o) := by
      unfold guardrailH
      split
      · exact heapExtends_setField h1ext hb _ _
      · exact h1ext
    have h3ext : heapExtends horig (guardrailH h1 b o ++ [([] : HObj)]) :=
      heapExtends_trans h2ext (heapExtends_append _ _)
    have h4ext := normPropsFoldH_extends hrec h2ext.1 (propCellOf o) (propKeysOf h1 o) _ h3ext
    exact heapExtends_setField h4ext hb _ _
  · exact h1ext

theorem normArrPhase_extends {rec : HHeap → HVal → HVal × HHeap}
    (hrec : ∀ hc pv, heapExtends hc (rec hc pv).2) {horig hA : HHeap} {b : Nat}
    (hAext : heapExtends horig hA) (hb : horig.length ≤ b) :
    heapExtends horig (normArrPhase rec hA b).2 := by
  unfold normArrPhase
  split
  · split
    · split
      · exact heapExtends_setField (heapExtends_trans hAext (hrec hA _)) hb _ _
      · exact hAext
    · exact hAext
  · exact hAext

theorem normArrPhase_fst (rec : HHeap → HVal → HVal × HHeap) (hA : HHeap) (b : Nat) :
    (normArrPhase rec hA b).1 = .ref b := by
  unfold normArrPhase
  split
  · split
    · split <;> rfl
    · rfl
  · rfl

theorem normalizeSchemaH_extends : ∀ (fuel : Nat) (h : HHeap) (v : HVal),
    heapExtends h (normalizeSchemaH fuel h v).2 := by
  intro fuel
  induction fuel with
  | zero => intro h v; exact heapExtends_refl h
  | succ fuel ih =>
    intro h v
    match v with
    | .null | .bool _ | .num _ | .str _ => exact heapExtends_refl h
    | .ref a =>
      cases ho : h[a]? with
      | none =>
        simp only [normalizeSchemaH, ho]
        exact heapExtends_refl h
      | some o =>
        simp only [normalizeSchemaH, ho]
        have hrec : ∀ hc pv, heapExtends hc ((fun hh vv => normalizeSchemaH fuel hh vv) hc pv).2 :=
          fun hc pv => ih hc pv
        have hAext : heapExtends h
            (normObjBranchH (fun hh vv => normalizeSchemaH fuel hh vv) (h ++ [o]) h.length o) :=
          normObjBranchH_extends hrec (heapExtends_append h [o]) (le_refl _) o
        exact normArrPhase_extends hrec hAext (le_refl _)

/-- C7: `normalizeSchema` does not mutate its argument.  In the
store-level model, for every fuel, input store and value: (a) every
address the input store holds is unchanged in the output store — the
input node and all of its nested sub-schemas, reachable or not, are
untouched; (b) when the input is a reference to a live object and the
run does any work (nonzero fuel), the returned value is the reference to
the freshly allocated shallow copy at the old end of the store, not the
input address — every modified node is a fresh copy. -/
theorem claim_c7_no_mutation (fuel : Nat) (h : HHeap) (v : HVal) :
    (∀ a, a < h.length → (normalizeSchemaH fuel h v).2[a]? = h[a]?)
    ∧ (∀ a o, v = .ref a → h[a]? = some o → fuel ≠ 0 →
        (normalizeSchemaH fuel h v).1 = .ref h.length) := by
  constructor
  · exact (normalizeSchemaH_extends fuel h v).2
  · intro a o hv ho hfuel
    match fuel with
    | 0 => exact absurd rfl hfuel
    | fuel + 1 =>
      subst hv
      simp only [normalizeSchemaH, ho]
      exact normArrPhase_fst _ _ _

theorem claim_c7_no_mutation_witness :
    (normalizeSchemaH 2 [[("type", .str "object"), ("additionalProperties", .bool false)]]
        (.ref 0)).2[0]?
      = ([[("type", HVal.str "object"), ("additionalProperties", HVal.bool false)]] : HHeap)[0]?
    ∧ (normalizeSchemaH 2 [[("type", .str "object"), ("additionalProperties", .bool false)]]
        (.ref 0)).1 = .ref 1 :=
  ⟨(claim_c7_no_mutation 2 _ (.ref 0)).1 0 (by decide),
   (claim_c7_no_mutation 2 _ (.ref 0)).2 0
     [("type", HVal.str "object"), ("additionalProperties", HVal.bool false)] rfl rfl
     (by decide)⟩

end CurlGen
